import Mathlib

/-!
# Verification of the reddit-e2e retrieval/ranking pipeline

Shallow embedding of the pipeline's core modules:

* `src/lib/heuristics.ts` — `buildPostFrequency`, `deduplicateWithBonus`,
  `heuristicScore`
* `src/lib/ai.ts` — `filterPostsByContext` (batched relevance scoring),
  `ConcurrencyLimiter`, `getEmbeddingsWithRetry`, `cosineSimilarity`,
  `adaptiveThreshold`, `semanticFilter`
* `src/lib/reddit.ts` — `fetchWithRetry`
* `src/app/api/context/filter/route.ts` — request validation in `POST`

JavaScript numbers are modelled as real numbers (`ℝ`) where the code uses
fractional arithmetic (`Math.log10`, `Math.sqrt`, ratios) and as `Nat`/`Int`
where only integral values occur.  A JS falsy-default expression `x || d`
over numbers is modelled by `jsNum` (absent or zero falls back to the
default), matching JS truthiness on numbers.  Asynchronous effects are
modelled by passing the outcome of each external call explicitly; object
mutation is modelled by returning the post-call state of the mutated list.
-/

/-! ## Module `heuristics.ts` -/

/-- A raw post as consumed by `buildPostFrequency` / `deduplicateWithBonus`:
only the `id` field is inspected; `payload` stands for all remaining fields of
the JS object, carried through unchanged by the spread `{...post}`. -/
structure RawPost where
  id : String
  payload : Nat
deriving DecidableEq

/-- Output shape of `deduplicateWithBonus`: the original object's fields
(`raw`) plus the attached `frequencyBonus` field. -/
structure DedupedPost where
  raw : RawPost
  frequencyBonus : Nat
deriving DecidableEq

/-- One iteration of `frequencyMap.set(id, (frequencyMap.get(id) || 0) + 1)`:
bump the count stored under key `i`.  The JS `Map` is modelled as a total
function defaulting to `0`. -/
def bumpId (m : String → Nat) (i : String) : String → Nat :=
  fun j => if j = i then m i + 1 else m j

/-- `buildPostFrequency(queryResults)` from `heuristics.ts`: for each query's
post list, collapse that list's ids into a set (`new Set(posts.map(p => p.id))`,
modelled by `List.dedup`) and bump the accumulator once per id. -/
def buildPostFrequency (queryResults : List (List RawPost)) : String → Nat :=
  queryResults.foldl
    (fun m posts => ((posts.map RawPost.id).dedup).foldl bumpId m)
    (fun _ => 0)

/-- One iteration of the `allPosts.forEach` loop in `deduplicateWithBonus`:
the accumulator carries the `uniquePosts` map as (insertion-ordered values,
inserted keys).  `freq post.id || 1` is modelled by the zero test. -/
def dedupStep (freq : String → Nat) (acc : List DedupedPost × List String)
    (post : RawPost) : List DedupedPost × List String :=
  if post.id ∈ acc.2 then acc
  else
    let f := freq post.id
    let fq := if f = 0 then 1 else f
    (acc.1 ++ [⟨post, fq - 1⟩], acc.2 ++ [post.id])

/-- `deduplicateWithBonus(queryResults)` from `heuristics.ts`: flatten all
lists, keep the first occurrence per id (JS `Map` preserves insertion order),
attach `frequencyBonus = freq - 1`. -/
def deduplicateWithBonus (queryResults : List (List RawPost)) : List DedupedPost :=
  let frequencyMap := buildPostFrequency queryResults
  let allPosts := queryResults.flatten
  (allPosts.foldl (dedupStep frequencyMap) ([], [])).1

/-- A post as consumed by `heuristicScore`: the four numeric fields it reads,
each possibly absent. -/
structure EngagementPost where
  ups : Option ℝ
  num_comments : Option ℝ
  upvote_ratio : Option ℝ
  created_utc : Option ℝ

/-- JS `v || d` on an optional number: absent (`undefined`) or zero falls back
to the default `d`. -/
noncomputable def jsNum (v : Option ℝ) (d : ℝ) : ℝ :=
  match v with
  | none => d
  | some x => if x = 0 then d else x

/-- `heuristicScore(post)` from `heuristics.ts`, with `Date.now()` passed in
explicitly (milliseconds).  The code's final `Number.isFinite` guard is the
identity in the real-number model: `recencyPenalty = max 1 _ ≥ 1`, so the
division is always by a positive finite number. -/
noncomputable def heuristicScore (post : EngagementPost) (nowMs : ℝ) : ℝ :=
  let upvotes := jsNum post.ups 0
  let comments := jsNum post.num_comments 0
  let ratio := jsNum post.upvote_ratio 0.5
  let created := jsNum post.created_utc 0
  let hoursAgo := (nowMs / 1000 - created) / 3600
  let recencyPenalty := max 1 (Real.logb 10 (hoursAgo + 1))
  (upvotes * ratio + comments * 2) / recencyPenalty

/-! ## Module `ai.ts` — batched relevance scoring (`filterPostsByContext`) -/

/-- A candidate post as consumed by `filterPostsByContext`: only `id` is used
for score lookup; `payload` stands for the remaining fields copied by the
spread `{...p}`. -/
structure CPost where
  id : String
  payload : Nat
deriving DecidableEq

/-- Output shape of `filterPostsByContext`: the original post plus the
attached `relevanceScore`. -/
structure ScoredPost where
  post : CPost
  relevanceScore : Int
deriving DecidableEq

/-- The batching loop `for (let i = 0; i < posts.length; i += 10)
batches.push(posts.slice(i, i + 10))`. -/
def chunk10 : List CPost → List (List CPost)
  | [] => []
  | a :: l => (a :: l).take 10 :: chunk10 ((a :: l).drop 10)
termination_by l => l.length
decreasing_by simp [List.length_drop]; omega

/-- A parsed batch score object (`{ "post_id": score }`), modelled as a
partial map from id to score. -/
def ScoreMap : Type := String → Option Int

/-- The write a single settled batch performs on `allScores` at key `i`:
a fulfilled batch writes its parsed map's entries (`Object.assign`), a
rejected batch writes the fallback score 5 for each of its own posts. -/
def writeAt (bo : List CPost × Option ScoreMap) (i : String) : Option Int :=
  match bo.2 with
  | some sm => sm i
  | none => if bo.1.any (fun p => p.id == i) then some 5 else none

/-- One iteration of the `results.forEach` aggregation loop in
`filterPostsByContext`: a fulfilled batch's map is merged with its keys
overriding (`Object.assign(allScores, result.value)`); a rejected batch sets
`allScores[p.id] = 5` for each post of that batch. -/
def assignOutcome (acc : String → Option Int) (bo : List CPost × Option ScoreMap) :
    String → Option Int :=
  match bo.2 with
  | some sm => fun i =>
      match sm i with
      | some v => some v
      | none => acc i
  | none => fun i => if bo.1.any (fun p => p.id == i) then some 5 else acc i

/-- The merged `allScores` map after the aggregation loop, given each batch's
settled outcome (`some sm` = fulfilled with parsed map `sm`, `none` =
rejected). -/
def mergeScores (batches : List (List CPost)) (outcomes : List (Option ScoreMap)) :
    String → Option Int :=
  (batches.zip outcomes).foldl assignOutcome (fun _ => none)

/-- JS `v || d` on an optional integer (used for `allScores[p.id] || 0`). -/
def jsInt (v : Option Int) (d : Int) : Int :=
  match v with
  | none => d
  | some x => if x = 0 then d else x

/-- `filterPostsByContext(posts, ...)` from `ai.ts`, with each batch's settled
outcome passed in explicitly (the batches run concurrently via
`Promise.allSettled`; outcome `i` settles batch `i`).  Returns the
`filteredPosts` array. -/
def filterPostsByContext (posts : List CPost) (outcomes : List (Option ScoreMap)) :
    List ScoredPost :=
  let batches := chunk10 posts
  let allScores := mergeScores batches outcomes
  posts.map (fun p => ⟨p, jsInt (allScores p.id) 0⟩)

/-- The last write performed on key `i` by a list of settled batches, if any
(later batches override earlier ones).  Used to characterise `mergeScores`. -/
def lastWrite (i : String) : List (List CPost × Option ScoreMap) → Option Int
  | [] => none
  | bo :: rest =>
    match lastWrite i rest with
    | some v => some v
    | none => writeAt bo i

/-! ## Module `ai.ts` — `ConcurrencyLimiter` -/

/-- State of a `ConcurrencyLimiter` instance: the configured ceiling, the
`currentRunning` counter, and the FIFO `queue` of pending `acquire` resolvers,
identified by caller ids (index 0 = longest waiting). -/
structure LimiterState where
  maxConcurrent : Nat
  currentRunning : Nat
  queue : List Nat
deriving DecidableEq

namespace ConcurrencyLimiter

/-- `acquire()`: if `currentRunning < maxConcurrent`, increment and admit
immediately (`true`); otherwise push the caller's resolver onto the queue
(`false` = caller suspends). -/
def acquire (callerId : Nat) (s : LimiterState) : LimiterState × Bool :=
  if s.currentRunning < s.maxConcurrent then
    ({ s with currentRunning := s.currentRunning + 1 }, true)
  else
    ({ s with queue := s.queue ++ [callerId] }, false)

/-- `release()`: decrement `currentRunning`; if the queue is non-empty,
re-increment, shift the front resolver and resolve it (that caller is
admitted).  Returns the admitted waiter, if any. -/
def release (s : LimiterState) : LimiterState × Option Nat :=
  let running := s.currentRunning - 1
  match s.queue with
  | [] => ({ s with currentRunning := running }, none)
  | c :: rest => ({ s with currentRunning := running + 1, queue := rest }, some c)

/-- States reachable from a freshly constructed `new ConcurrencyLimiter(max)`.
`release` steps require an admitted call in flight (`0 < currentRunning`):
in `run()` every `release` is paired with a preceding successful admission. -/
inductive Reachable (max : Nat) : LimiterState → Prop
  | init : Reachable max ⟨max, 0, []⟩
  | acquire (callerId : Nat) (s : LimiterState) :
      Reachable max s → Reachable max (acquire callerId s).1
  | release (s : LimiterState) :
      Reachable max s → 0 < s.currentRunning → Reachable max (release s).1

/-- Run `k` successive `release` events (each fired by an admitted call
finishing its `fn`), collecting the waiters admitted along the way. -/
def drainSteps : LimiterState → Nat → List Nat × LimiterState
  | s, 0 => ([], s)
  | s, k + 1 =>
    let step := release s
    let rest := drainSteps step.1 k
    (step.2.toList ++ rest.1, rest.2)

end ConcurrencyLimiter

/-! ## Module `ai.ts` — embeddings, cosine similarity, semantic filter -/

/-- A post as consumed by `semanticFilter`: the fields it reads (`title`,
`selftext`) plus the `semanticScore` field it writes; `payload` stands for
the object's remaining fields, which the call leaves untouched. -/
structure SPost where
  id : String
  title : String
  selftext : Option String
  semanticScore : Option ℝ
  payload : Nat

/-- The embedded text of one candidate:
`` `${p.title} ${p.selftext?.slice(0, 200) || ''}` ``. -/
def postText (p : SPost) : String :=
  p.title ++ " " ++ (match p.selftext with
    | none => ""
    | some s => s.take 200)

/-- `getEmbeddingsWithRetry(texts, attempt)` from `ai.ts`, with the outcome of
the HTTP call at each attempt passed in explicitly: try the current attempt;
on success return its value; on failure rethrow if `attempt >= 4`, otherwise
(after a backoff delay) recurse with `attempt + 1`. -/
def getEmbeddingsWithRetry (outcome : Nat → Except String (List (List ℝ)))
    (attempt : Nat) : Except String (List (List ℝ)) :=
  match outcome attempt with
  | .ok v => .ok v
  | .error e =>
    if 4 ≤ attempt then .error e
    else getEmbeddingsWithRetry outcome (attempt + 1)
termination_by 4 - attempt
decreasing_by omega

/-- `getEmbeddings(texts)`: the retry loop starting at attempt 1, run under
the concurrency limiter (`limiter.run`), which does not alter the returned
value. -/
def getEmbeddings (outcome : List String → Nat → Except String (List (List ℝ)))
    (texts : List String) : Except String (List (List ℝ)) :=
  getEmbeddingsWithRetry (outcome texts) 1

/-- The accumulator loop of `cosineSimilarity`: running `(dot, magA, magB)`
over the paired coordinates.  The source iterates `i < a.length`; the model
is exact whenever `a` and `b` have equal length (the only way the source is
called with well-formed embeddings). -/
def cosineAccum : List ℝ → List ℝ → ℝ × ℝ × ℝ
  | [], _ => (0, 0, 0)
  | _, [] => (0, 0, 0)
  | x :: a, y :: b =>
    let rest := cosineAccum a b
    (x * y + rest.1, x * x + rest.2.1, y * y + rest.2.2)

/-- `cosineSimilarity(a, b) = dot / (Math.sqrt(magA) * Math.sqrt(magB))`. -/
noncomputable def cosineSimilarity (a b : List ℝ) : ℝ :=
  let acc := cosineAccum a b
  acc.1 / (Real.sqrt acc.2.1 * Real.sqrt acc.2.2)

/-- `adaptiveThreshold(intent)` from `ai.ts`. -/
def adaptiveThreshold (intent : String) : ℝ :=
  if intent.toLower = "how-to" then 0.74
  else if intent.toLower = "story" then 0.68
  else if intent.toLower = "trend" then 0.70
  else 0.72

/-- The mutation `post.semanticScore = score` performed on every indexed post
during the filter callback: each input post paired with its embedding gets the
cosine similarity to the query attached. -/
noncomputable def semanticApply (queryEmbedding : List ℝ) (posts : List SPost)
    (postEmbeddings : List (List ℝ)) : List SPost :=
  posts.zipWith
    (fun p e => { p with semanticScore := some (cosineSimilarity queryEmbedding e) })
    postEmbeddings

/-- The filter decision `score >= threshold` applied to the mutated posts:
the callback returns the posts whose attached score reaches the threshold. -/
noncomputable def keptAtThreshold (threshold : ℝ) (queryEmbedding : List ℝ)
    (posts : List SPost) (postEmbeddings : List (List ℝ)) : List SPost :=
  (semanticApply queryEmbedding posts postEmbeddings).filter
    (fun p => decide (threshold ≤ p.semanticScore.getD 0))

/-- Result of one `semanticFilter` call: the returned (kept) array, and the
state of the input post objects after the call (`semanticFilter` mutates them
in place). -/
structure SemanticResult where
  kept : List SPost
  finalPosts : List SPost

/-- `semanticFilter(posts, query, intentType)` from `ai.ts`: empty input short
-circuits; otherwise embed `[query, ...posts.map(text)]` in one batched call;
on any error the `catch` returns `[]` (fail closed, no mutation); on
success attach scores and keep those `>= adaptiveThreshold(intentType)`. -/
noncomputable def semanticFilterRun (posts : List SPost) (query : String)
    (intentType : String)
    (outcome : List String → Nat → Except String (List (List ℝ))) : SemanticResult :=
  if posts.isEmpty then ⟨[], posts⟩
  else
    let textsToEmbed := query :: posts.map postText
    match getEmbeddings outcome textsToEmbed with
    | .error _ => ⟨[], posts⟩
    | .ok embeddings =>
      let queryEmbedding := embeddings.headD []
      let postEmbeddings := embeddings.tail
      let threshold := adaptiveThreshold intentType
      ⟨keptAtThreshold threshold queryEmbedding posts postEmbeddings,
        semanticApply queryEmbedding posts postEmbeddings⟩

/-! ## Module `reddit.ts` — `fetchWithRetry` -/

/-- Outcome of one underlying `fetch` attempt: an HTTP response with a status
code, an `AbortError` timeout, or any other thrown error. -/
inductive AttemptResult
  | response (status : Nat)
  | timeout
  | failure
deriving DecidableEq

/-- Final outcome of `fetchWithRetry`: a returned response (with its status)
or a thrown error. -/
inductive FetchResult
  | success (status : Nat)
  | failed
deriving DecidableEq

/-- `res.ok`: status in the inclusive range 200–299. -/
def isOkStatus (s : Nat) : Bool := 200 ≤ s && s ≤ 299

/-- The retryable-status test `res.status === 429 || res.status >= 500`. -/
def retryableStatus (s : Nat) : Bool := s == 429 || 500 ≤ s

/-- The retry loop of `fetchWithRetry` from attempt number `attempt` on, with
each attempt's outcome passed in explicitly.  Returns the final result and
the list of backoff delays slept before each retry, in order: a retryable
status waits `Math.pow(2, attempt) * 1500` ms, a timeout waits a fixed
2000 ms; a non-retryable status, a non-abort error, or a final attempt
throws. -/
def fetchRetryGo (attempts : Nat → AttemptResult) (maxRetries attempt : Nat) :
    FetchResult × List Nat :=
  if h : attempt < maxRetries then
    match attempts attempt with
    | .response s =>
      if isOkStatus s then (.success s, [])
      else if retryableStatus s ∧ attempt < maxRetries - 1 then
        let rest := fetchRetryGo attempts maxRetries (attempt + 1)
        (rest.1, (2 ^ attempt * 1500) :: rest.2)
      else (.failed, [])
    | .timeout =>
      if attempt < maxRetries - 1 then
        let rest := fetchRetryGo attempts maxRetries (attempt + 1)
        (rest.1, 2000 :: rest.2)
      else (.failed, [])
    | .failure => (.failed, [])
  else (.failed, [])
termination_by maxRetries - attempt
decreasing_by all_goals omega

/-- `fetchWithRetry(url, options, maxRetries)` from `reddit.ts` (the loop
starts at attempt 0; the default is `maxRetries = 3`). -/
def fetchWithRetry (attempts : Nat → AttemptResult) (maxRetries : Nat) :
    FetchResult × List Nat :=
  fetchRetryGo attempts maxRetries 0

/-! ## Module `route.ts` — request validation in `POST /api/context/filter` -/

/-- Outcome of the route handler as far as validation is concerned: either the
400 early return (`{ error: 'Query required' }`) or the value produced by the
rest of the pipeline. -/
inductive RouteResponse (α : Type)
  | badRequest
  | result (a : α)
deriving DecidableEq

/-- The validation prologue of `POST` in `route.ts`:
`if (!userQuery || userQuery.length < 2) return 400` — a missing body field
(`none`) or empty string is falsy; otherwise only the raw (untrimmed) length
is checked against the lower bound.  Only when validation passes does the
pipeline run. -/
def routePOST {α : Type} (userQuery : Option String) (pipeline : String → α) :
    RouteResponse α :=
  match userQuery with
  | none => .badRequest
  | some s =>
    if s = "" then .badRequest
    else if s.length < 2 then .badRequest
    else .result (pipeline s)

/-- A 201-character query string (exceeds the spec's 200-character cap). -/
def longQuery : String := String.mk (List.replicate 201 'a')

/-! # Theorems -/

/-! ## C1 — dedup invariant -/

theorem foldl_bumpId (l : List String) (m : String → Nat) (j : String) :
    (l.foldl bumpId m) j = m j + l.count j := by
  induction l generalizing m with
  | nil => simp
  | cons h t ih =>
    rw [List.foldl_cons, ih, List.count_cons]
    by_cases hj : j = h
    · subst hj
      simp only [bumpId, if_pos rfl, beq_self_eq_true, if_true]
      omega
    · have hne : (h == j) = false := by
        simp only [beq_eq_false_iff_ne, ne_eq]
        exact fun hc => hj hc.symm
      simp [bumpId, if_neg hj, hne]

theorem dedupFoldInner_eq (q : List RawPost) (m : String → Nat) (j : String) :
    (((q.map RawPost.id).dedup).foldl bumpId m) j
      = m j + (if q.any (fun p => p.id == j) then 1 else 0) := by
  rw [foldl_bumpId, List.count_dedup]
  by_cases hj : j ∈ q.map RawPost.id
  · have hany : (q.any fun p => p.id == j) = true := by
      obtain ⟨p, hp, hpj⟩ := List.mem_map.mp hj
      exact List.any_eq_true.mpr ⟨p, hp, by simp [beq_iff_eq, hpj]⟩
    rw [if_pos hj, if_pos hany]
  · have hany : (q.any fun p => p.id == j) = false := by
      rw [List.any_eq_false]
      intro p hp hc
      exact hj (List.mem_map.mpr ⟨p, hp, (beq_iff_eq ..).mp hc⟩)
    rw [if_neg hj, hany, if_neg (by simp)]

theorem buildPostFrequency_count (queryResults : List (List RawPost)) (j : String) :
    buildPostFrequency queryResults j
      = queryResults.countP (fun posts => posts.any (fun p => p.id == j)) := by
  unfold buildPostFrequency
  suffices h : ∀ m : String → Nat,
      (queryResults.foldl
        (fun m posts => ((posts.map RawPost.id).dedup).foldl bumpId m) m) j
        = m j + queryResults.countP (fun posts => posts.any (fun p => p.id == j)) by
    simpa using h (fun _ => 0)
  intro m
  induction queryResults generalizing m with
  | nil => simp
  | cons q qs ih =>
    rw [List.foldl_cons, ih, List.countP_cons, dedupFoldInner_eq]
    omega

theorem dedupStep_mem (freq : String → Nat) (res : List DedupedPost)
    (seen : List String) (p : RawPost) (h : p.id ∈ seen) :
    dedupStep freq (res, seen) p = (res, seen) := by
  unfold dedupStep
  rw [if_pos h]

theorem dedupStep_not_mem (freq : String → Nat) (res : List DedupedPost)
    (seen : List String) (p : RawPost) (h : p.id ∉ seen) :
    dedupStep freq (res, seen) p
      = (res ++ [⟨p, (if freq p.id = 0 then 1 else freq p.id) - 1⟩],
         seen ++ [p.id]) := by
  unfold dedupStep
  rw [if_neg h]

theorem dedupStep_foldl_filter (freq : String → Nat) (l : List RawPost)
    (acc : List DedupedPost) (seen : List String) (P : String) :
    ((l.foldl (dedupStep freq) (acc, seen)).1.filter (fun d => d.raw.id == P)) =
      acc.filter (fun d => d.raw.id == P) ++
        (if P ∈ seen then []
         else match l.find? (fun p => p.id == P) with
           | none => []
           | some post => [⟨post, (if freq P = 0 then 1 else freq P) - 1⟩]) := by
  induction l generalizing acc seen with
  | nil => by_cases hP : P ∈ seen <;> simp [hP]
  | cons p t ih =>
    rw [List.foldl_cons]
    by_cases hmem : p.id ∈ seen
    · rw [dedupStep_mem freq acc seen p hmem, ih]
      by_cases hP : P ∈ seen
      · simp [hP]
      · have hne : (p.id == P) = false := by
          simp only [beq_eq_false_iff_ne, ne_eq]
          intro hc
          exact hP (hc ▸ hmem)
        simp [hP, hne]
    · rw [dedupStep_not_mem freq acc seen p hmem, ih, List.filter_append]
      by_cases hpP : p.id = P
      · have hP : P ∉ seen := by rw [← hpP]; exact hmem
        have hpt : (p.id == P) = true := by simp [beq_iff_eq, hpP]
        have hmem2 : P ∈ seen ++ [p.id] := by
          rw [← hpP]; simp
        simp [hmem2, hP, hpt, hpP]
      · have hne : (p.id == P) = false := by
          simp [beq_eq_false_iff_ne, ne_eq, hpP]
        have hiff : (P ∈ seen ++ [p.id]) ↔ P ∈ seen := by
          simp only [List.mem_append, List.mem_singleton]
          constructor
          · rintro (h | h)
            · exact h
            · exact absurd h.symm hpP
          · exact Or.inl
        by_cases hP : P ∈ seen
        · simp [hP, hiff.mpr hP, hne]
        · have h2 : P ∉ seen ++ [p.id] := fun hc => hP (hiff.mp hc)
          simp [hP, h2, hne]

/-- C1: if post id `P` occurs in exactly `k` distinct per-query lists
(duplicates within one list counted once), `deduplicateWithBonus` returns
exactly one post with id `P`; it is the first occurrence of `P` in the
flattened input and carries `frequencyBonus = k - 1`. -/
theorem deduplicateWithBonus_frequency (queryResults : List (List RawPost))
    (P : String) (k : Nat)
    (hk : queryResults.countP (fun posts => posts.any (fun p => p.id == P)) = k)
    (hpos : 0 < k) :
    ∃ firstP : RawPost,
      queryResults.flatten.find? (fun p => p.id == P) = some firstP ∧
      (deduplicateWithBonus queryResults).filter (fun d => d.raw.id == P)
        = [⟨firstP, k - 1⟩] := by
  have hfreq : buildPostFrequency queryResults P = k := by
    rw [buildPostFrequency_count, hk]
  have hsome : (queryResults.flatten.find? (fun p => p.id == P)).isSome := by
    rw [List.find?_isSome]
    have : ∃ l ∈ queryResults, l.any (fun p => p.id == P) = true := by
      by_contra hc
      push_neg at hc
      have : queryResults.countP (fun posts => posts.any (fun p => p.id == P)) = 0 :=
        List.countP_eq_zero.mpr (by
          intro a ha
          exact fun hb => hc a ha hb)
      omega
    obtain ⟨l, hl, hany⟩ := this
    obtain ⟨x, hx, hxP⟩ := List.any_eq_true.mp hany
    exact ⟨x, List.mem_flatten.mpr ⟨l, hl, hx⟩, hxP⟩
  obtain ⟨firstP, hfind⟩ := Option.isSome_iff_exists.mp hsome
  refine ⟨firstP, hfind, ?_⟩
  unfold deduplicateWithBonus
  have := dedupStep_foldl_filter (buildPostFrequency queryResults)
    queryResults.flatten [] [] P
  simp only [List.not_mem_nil, if_false, List.filter_nil, List.nil_append] at this
  rw [this, hfind, hfreq]
  have hkne : ¬ (k = 0) := by omega
  simp [hkne]

/-- Witness for C1 at a concrete input: id `a` occurs in lists 0 and 2 of 3,
so it is returned once, as its first flattened occurrence, with
`frequencyBonus = 1`. -/
theorem deduplicateWithBonus_frequency_witness :
    ([[⟨"a", 0⟩, ⟨"b", 1⟩], [⟨"b", 2⟩], [⟨"a", 3⟩, ⟨"a", 4⟩]] :
        List (List RawPost)).countP (fun posts => posts.any (fun p => p.id == "a")) = 2
    ∧ 0 < 2
    ∧ ∃ firstP : RawPost,
        ([[⟨"a", 0⟩, ⟨"b", 1⟩], [⟨"b", 2⟩], [⟨"a", 3⟩, ⟨"a", 4⟩]] :
            List (List RawPost)).flatten.find? (fun p => p.id == "a") = some firstP ∧
        (deduplicateWithBonus
            [[⟨"a", 0⟩, ⟨"b", 1⟩], [⟨"b", 2⟩], [⟨"a", 3⟩, ⟨"a", 4⟩]]).filter
            (fun d => d.raw.id == "a")
          = [⟨firstP, 2 - 1⟩] :=
  ⟨by decide, by decide,
    deduplicateWithBonus_frequency
      [[⟨"a", 0⟩, ⟨"b", 1⟩], [⟨"b", 2⟩], [⟨"a", 3⟩, ⟨"a", 4⟩]] "a" 2
      (by decide) (by decide)⟩

/-! ## C6 / C7 — `heuristicScore` -/

theorem jsNum_nonneg (v : Option ℝ) (d : ℝ) (hd : 0 ≤ d)
    (hv : ∀ x, v = some x → 0 ≤ x) : 0 ≤ jsNum v d := by
  unfold jsNum
  cases v with
  | none => exact hd
  | some x =>
    by_cases hx : x = 0
    · simp [hx, hd]
    · simp [hx, hv x rfl]

/-- C6 (amended): a post with an absent creation timestamp is treated as
created at Unix epoch 0 — equivalently, the same as `created_utc = 0` — so
the recency penalty is `max 1 (log10(nowMs/1000/3600 + 1))`, which is far
from 1 for present-day clock values, and the score is the engagement base
divided by that penalty (not by 1). -/
theorem heuristicScore_absent_created (post : EngagementPost) (nowMs : ℝ)
    (h : post.created_utc = none) :
    heuristicScore post nowMs
      = (jsNum post.ups 0 * jsNum post.upvote_ratio 0.5
          + jsNum post.num_comments 0 * 2)
        / max 1 (Real.logb 10 (nowMs / 1000 / 3600 + 1))
    ∧ heuristicScore post nowMs
      = heuristicScore { post with created_utc := some 0 } nowMs := by
  constructor
  · unfold heuristicScore
    rw [h]
    show (_ + _) / max 1 (Real.logb 10 ((nowMs / 1000 - jsNum none 0) / 3600 + 1)) = _
    norm_num [jsNum]
  · unfold heuristicScore
    rw [h]
    norm_num [jsNum]

/-- Witness for C6 (amended) at a concrete input. -/
theorem heuristicScore_absent_created_witness :
    (⟨some 10, some 0, some 1, none⟩ : EngagementPost).created_utc = none
    ∧ (heuristicScore ⟨some 10, some 0, some 1, none⟩ 7200000
        = (jsNum (some 10) 0 * jsNum (some 1) 0.5 + jsNum (some 0) 0 * 2)
          / max 1 (Real.logb 10 (7200000 / 1000 / 3600 + 1))
      ∧ heuristicScore ⟨some 10, some 0, some 1, none⟩ 7200000
        = heuristicScore ⟨some 10, some 0, some 1, some 0⟩ 7200000) :=
  ⟨rfl, heuristicScore_absent_created ⟨some 10, some 0, some 1, none⟩ 7200000 rfl⟩

/-- C6 counterexample: with the creation timestamp absent and the clock at
10^6 − 1 hours past the epoch, the score of a post with upvotes 10, ratio 1
and no comments is 10/6 (penalty log10(10^6) = 6), not (10·1 + 0·2)/1: the
code defaults the timestamp to 0, not to "now", so the recency penalty is
nowhere near its minimum of 1. -/
theorem heuristicScore_absent_created_counterexample :
    heuristicScore ⟨some 10, some 0, some 1, none⟩ (1000 * (3600 * (10 ^ 6 - 1)))
      = 10 / 6
    ∧ heuristicScore ⟨some 10, some 0, some 1, none⟩ (1000 * (3600 * (10 ^ 6 - 1)))
      ≠ (10 * 1 + 0 * 2) / 1 := by
  have hlogb : Real.logb 10 (1000000:ℝ) = 6 := by
    rw [show (1000000:ℝ) = 10 ^ (6:ℕ) by norm_num, Real.logb_pow,
      Real.logb_self_eq_one (by norm_num)]
    norm_num
  have key : heuristicScore ⟨some 10, some 0, some 1, none⟩
      (1000 * (3600 * (10 ^ 6 - 1))) = 10 / 6 := by
    unfold heuristicScore
    show (jsNum (some 10) 0 * jsNum (some 1) 0.5 + jsNum (some 0) 0 * 2)
        / max 1 (Real.logb 10 ((1000 * (3600 * ((10:ℝ) ^ 6 - 1)) / 1000
            - jsNum none 0) / 3600 + 1)) = 10 / 6
    norm_num [jsNum]
    rw [hlogb, max_eq_right (by norm_num : (1:ℝ) ≤ 6)]
    norm_num
  refine ⟨key, ?_⟩
  rw [key]
  norm_num

/-- C7 (amended): for any post in which at least one of the four numeric
fields is absent — and whose present upvote, comment and ratio values are
nonnegative — `heuristicScore` is nonnegative (and total in the real-number
model: the penalty is ≥ 1, so no division by zero occurs).  Without the
nonnegativity proviso the score of a post with a negative present field is
negative. -/
theorem heuristicScore_nonneg (post : EngagementPost) (nowMs : ℝ)
    (habs : post.ups = none ∨ post.num_comments = none
      ∨ post.upvote_ratio = none ∨ post.created_utc = none)
    (hups : ∀ v, post.ups = some v → 0 ≤ v)
    (hcom : ∀ v, post.num_comments = some v → 0 ≤ v)
    (hrat : ∀ v, post.upvote_ratio = some v → 0 ≤ v) :
    0 ≤ heuristicScore post nowMs := by
  unfold heuristicScore
  have h1 : 0 ≤ jsNum post.ups 0 := jsNum_nonneg _ _ le_rfl hups
  have h2 : 0 ≤ jsNum post.num_comments 0 := jsNum_nonneg _ _ le_rfl hcom
  have h3 : 0 ≤ jsNum post.upvote_ratio 0.5 := jsNum_nonneg _ _ (by norm_num) hrat
  have hpen : (0:ℝ) < max 1 (Real.logb 10
      ((nowMs / 1000 - jsNum post.created_utc 0) / 3600 + 1)) :=
    lt_of_lt_of_le one_pos (le_max_left _ _)
  exact div_nonneg
    (add_nonneg (mul_nonneg h1 h3) (mul_nonneg h2 (by norm_num)))
    hpen.le

/-- Witness for C7 (amended) at a concrete input. -/
theorem heuristicScore_nonneg_witness :
    0 ≤ heuristicScore ⟨some 3, none, some 1, some 0⟩ 123 :=
  heuristicScore_nonneg ⟨some 3, none, some 1, some 0⟩ 123
    (Or.inr (Or.inl rfl))
    (fun v hv => by injection hv with h; rw [← h]; norm_num)
    (fun v hv => nomatch hv)
    (fun v hv => by injection hv with h; rw [← h]; norm_num)

/-- C7 counterexample: a post with `num_comments` absent but a negative
(present) upvote count scores −10 < 0: the code's guard only forces
non-finite results to 0, it does not clamp negative scores. -/
theorem heuristicScore_nonneg_counterexample :
    (⟨some (-10), none, some 1, some 0⟩ : EngagementPost).num_comments = none
    ∧ heuristicScore ⟨some (-10), none, some 1, some 0⟩ 0 = -10
    ∧ heuristicScore ⟨some (-10), none, some 1, some 0⟩ 0 < 0 := by
  have key : heuristicScore ⟨some (-10), none, some 1, some 0⟩ 0 = -10 := by
    unfold heuristicScore
    show (jsNum (some (-10)) 0 * jsNum (some 1) 0.5 + jsNum none 0 * 2)
        / max 1 (Real.logb 10 (((0:ℝ) / 1000 - jsNum (some 0) 0) / 3600 + 1)) = -10
    norm_num [jsNum, Real.logb_one]
  exact ⟨rfl, key, by rw [key]; norm_num⟩

/-! ## C2 — `ConcurrencyLimiter` -/

namespace ConcurrencyLimiter

theorem reachable_invariant (max : Nat) (s : LimiterState) (h : Reachable max s) :
    s.maxConcurrent = max ∧ s.currentRunning ≤ max
      ∧ (s.queue ≠ [] → s.currentRunning = max) := by
  induction h with
  | init => exact ⟨rfl, Nat.zero_le _, fun hc => absurd rfl hc⟩
  | acquire c s hs ih =>
    obtain ⟨hm, hr, hq⟩ := ih
    by_cases hlt : s.currentRunning < s.maxConcurrent
    · have heq : (acquire c s).1 = { s with currentRunning := s.currentRunning + 1 } := by
        unfold acquire
        rw [if_pos hlt]
      rw [heq]
      refine ⟨hm, ?_, ?_⟩
      · show s.currentRunning + 1 ≤ max
        omega
      · intro hqne
        show s.currentRunning + 1 = max
        have := hq hqne
        omega
    · have heq : (acquire c s).1 = { s with queue := s.queue ++ [c] } := by
        unfold acquire
        rw [if_neg hlt]
      rw [heq]
      refine ⟨hm, hr, fun _ => ?_⟩
      show s.currentRunning = max
      omega
  | release s hs hpos ih =>
    obtain ⟨hm, hr, hq⟩ := ih
    cases hcq : s.queue with
    | nil =>
      have heq : (release s).1 = { s with currentRunning := s.currentRunning - 1 } := by
        unfold release
        rw [hcq]
      rw [heq]
      refine ⟨hm, ?_, ?_⟩
      · show s.currentRunning - 1 ≤ max
        omega
      · intro hqne
        exact absurd hcq hqne
    | cons c rest =>
      have hrm : s.currentRunning = max := hq (by rw [hcq]; simp)
      have heq : (release s).1
          = { s with currentRunning := s.currentRunning - 1 + 1, queue := rest } := by
        unfold release
        rw [hcq]
      rw [heq]
      refine ⟨hm, ?_, fun _ => ?_⟩
      · show s.currentRunning - 1 + 1 ≤ max
        omega
      · show s.currentRunning - 1 + 1 = max
        omega

theorem drainSteps_drains (max : Nat) (hmax : 0 < max) :
    ∀ n (s : LimiterState), Reachable max s →
      s.currentRunning + s.queue.length = n →
      drainSteps s n = (s.queue, ⟨max, 0, []⟩) := by
  intro n
  induction n with
  | zero =>
    intro s hs hn
    obtain ⟨hm, _, _⟩ := reachable_invariant max s hs
    have hr0 : s.currentRunning = 0 := by omega
    have hq0 : s.queue = [] := List.length_eq_zero.mp (by omega)
    have hseq : s = ⟨max, 0, []⟩ := by
      cases s
      simp_all
    rw [hseq]
    rfl
  | succ k ih =>
    intro s hs hn
    obtain ⟨hm, hr, hq⟩ := reachable_invariant max s hs
    have hrun : 0 < s.currentRunning := by
      by_contra hc
      have hr0 : s.currentRunning = 0 := by omega
      have hq0 : s.queue = [] := by
        by_contra hqc
        have := hq hqc
        omega
      rw [hr0, hq0] at hn
      simp at hn
    have hs' : Reachable max (release s).1 := Reachable.release s hs hrun
    have hstep : drainSteps s (k + 1)
        = ((release s).2.toList ++ (drainSteps (release s).1 k).1,
           (drainSteps (release s).1 k).2) := rfl
    cases hcq : s.queue with
    | nil =>
      have hrel : release s = ({ s with currentRunning := s.currentRunning - 1 }, none) := by
        unfold release
        rw [hcq]
      have hlen : (release s).1.currentRunning + (release s).1.queue.length = k := by
        rw [hrel]
        simp only []
        rw [hcq] at hn ⊢
        simp at hn ⊢
        omega
      have := ih (release s).1 hs' hlen
      rw [hstep, this, hrel]
      simp [hcq]
    | cons c rest =>
      have hrel : release s
          = ({ s with currentRunning := s.currentRunning - 1 + 1, queue := rest }, some c) := by
        unfold release
        rw [hcq]
      have hlen : (release s).1.currentRunning + (release s).1.queue.length = k := by
        rw [hrel]
        simp only []
        rw [hcq] at hn
        simp at hn
        omega
      have := ih (release s).1 hs' hlen
      rw [hstep, this, hrel]
      simp

/-- C2: in every reachable state of a `ConcurrencyLimiter` with ceiling
`max > 0`, (1) the number of simultaneously admitted calls — tracked by
`currentRunning` — never exceeds `max`; (2) `release` hands the freed slot to
the longest-waiting queued caller (the queue's head, FIFO); and (3) given that
every admitted call eventually releases, running one `release` per
outstanding call drains the limiter completely, admitting every queued caller
in FIFO (submission) order and ending at the idle state. -/
theorem concurrencyLimiter_bound_fifo_complete (max : Nat) (s : LimiterState)
    (hs : Reachable max s) (hmax : 0 < max) :
    s.currentRunning ≤ max
    ∧ (∀ c rest, s.queue = c :: rest →
        (release s).2 = some c ∧ (release s).1.queue = rest)
    ∧ drainSteps s (s.currentRunning + s.queue.length) = (s.queue, ⟨max, 0, []⟩) := by
  refine ⟨(reachable_invariant max s hs).2.1, ?_, ?_⟩
  · intro c rest hcq
    constructor
    · unfold release
      rw [hcq]
    · unfold release
      rw [hcq]
  · exact drainSteps_drains max hmax _ s hs rfl

/-- Witness for C2: the state reached by 5 `acquire`s on a fresh limiter with
`max = 2` (callers 1–5; callers 3,4,5 queue).  The admitted count is within
the bound, the next `release` admits caller 3 (the longest waiter), and 5
releases drain the limiter admitting 3,4,5 in submission order. -/
theorem concurrencyLimiter_witness :
    (⟨2, 2, [3, 4, 5]⟩ : LimiterState).currentRunning ≤ 2
    ∧ ((release ⟨2, 2, [3, 4, 5]⟩).2 = some 3
        ∧ (release ⟨2, 2, [3, 4, 5]⟩).1.queue = [4, 5])
    ∧ drainSteps ⟨2, 2, [3, 4, 5]⟩ 5 = ([3, 4, 5], ⟨2, 0, []⟩) := by
  have h0 : Reachable 2 ⟨2, 0, []⟩ := Reachable.init
  have h1 : Reachable 2 ⟨2, 1, []⟩ := Reachable.acquire 1 _ h0
  have h2 : Reachable 2 ⟨2, 2, []⟩ := Reachable.acquire 2 _ h1
  have h3 : Reachable 2 ⟨2, 2, [3]⟩ := Reachable.acquire 3 _ h2
  have h4 : Reachable 2 ⟨2, 2, [3, 4]⟩ := Reachable.acquire 4 _ h3
  have h5 : Reachable 2 ⟨2, 2, [3, 4, 5]⟩ := Reachable.acquire 5 _ h4
  have main := concurrencyLimiter_bound_fifo_complete 2 ⟨2, 2, [3, 4, 5]⟩ h5 (by decide)
  exact ⟨main.1, main.2.1 3 [4, 5] rfl, main.2.2⟩

end ConcurrencyLimiter


/-! ## C3 — `filterPostsByContext` batch-fault isolation -/

theorem chunk10_flatten (l : List CPost) : (chunk10 l).flatten = l := by
  induction l using chunk10.induct with
  | case1 => simp [chunk10]
  | case2 a t ih =>
    simp only [chunk10, List.flatten_cons, ih, List.take_append_drop]

theorem assignOutcome_eq (m : String → Option Int)
    (bo : List CPost × Option ScoreMap) (i : String) :
    assignOutcome m bo i
      = match writeAt bo i with
        | some v => some v
        | none => m i := by
  obtain ⟨b, o⟩ := bo
  cases o with
  | some sm =>
    cases hsm : sm i with
    | none => simp [assignOutcome, writeAt, hsm]
    | some v => simp [assignOutcome, writeAt, hsm]
  | none =>
    by_cases hb : b.any (fun p => p.id == i) = true
    · simp [assignOutcome, writeAt, hb]
    · simp [assignOutcome, writeAt, hb]

theorem foldl_assignOutcome (L : List (List CPost × Option ScoreMap))
    (m : String → Option Int) (i : String) :
    (L.foldl assignOutcome m) i
      = match lastWrite i L with
        | some v => some v
        | none => m i := by
  induction L generalizing m with
  | nil => rfl
  | cons bo L ih =>
    rw [List.foldl_cons, ih]
    cases hlw : lastWrite i L with
    | some v => simp [lastWrite, hlw]
    | none => simp [lastWrite, hlw, assignOutcome_eq]

theorem lastWrite_none (i : String) (L : List (List CPost × Option ScoreMap))
    (h : ∀ bo ∈ L, writeAt bo i = none) : lastWrite i L = none := by
  induction L with
  | nil => rfl
  | cons bo L ih =>
    have hL := ih (fun x hx => h x (List.mem_cons_of_mem _ hx))
    simp [lastWrite, hL, h bo (List.mem_cons_self bo L)]

theorem lastWrite_at (i : String) (L : List (List CPost × Option ScoreMap))
    (f : Nat) (w : Int) : ∀ (hf : f < L.length),
    writeAt (L.get ⟨f, hf⟩) i = some w →
    (∀ j (hj : j < L.length), f < j → writeAt (L.get ⟨j, hj⟩) i = none) →
    lastWrite i L = some w := by
  induction L generalizing f with
  | nil =>
    intro hf
    exact absurd hf (Nat.not_lt_zero f)
  | cons bo L ih =>
    intro hf hw hafter
    cases f with
    | zero =>
      have hnone : lastWrite i L = none := by
        apply lastWrite_none
        intro x hx
        obtain ⟨j, hj, hget⟩ := List.mem_iff_getElem.mp hx
        have hstep := hafter (j + 1) (Nat.succ_lt_succ hj) (Nat.succ_pos j)
        rw [show (bo :: L).get ⟨j + 1, Nat.succ_lt_succ hj⟩ = L.get ⟨j, hj⟩ from rfl]
          at hstep
        rw [show L.get ⟨j, hj⟩ = x from hget] at hstep
        exact hstep
      simp only [lastWrite, hnone]
      exact hw
    | succ g =>
      have hg : g < L.length := Nat.lt_of_succ_lt_succ hf
      have hw2 : writeAt (L.get ⟨g, hg⟩) i = some w := hw
      have hafter2 : ∀ j (hj : j < L.length), g < j →
          writeAt (L.get ⟨j, hj⟩) i = none := by
        intro j hj hgj
        exact hafter (j + 1) (Nat.succ_lt_succ hj) (Nat.succ_lt_succ hgj)
      have hres := ih g hg hw2 hafter2
      simp [lastWrite, hres]

theorem chunk10_disjoint_ids (posts : List CPost)
    (hnodup : (posts.map CPost.id).Nodup)
    (i j : Nat) (hi : i < (chunk10 posts).length) (hj : j < (chunk10 posts).length)
    (hne : i ≠ j) (x : String)
    (hxi : x ∈ ((chunk10 posts).get ⟨i, hi⟩).map CPost.id)
    (hxj : x ∈ ((chunk10 posts).get ⟨j, hj⟩).map CPost.id) : False := by
  have h2 : (((chunk10 posts).map (List.map CPost.id)).flatten).Nodup := by
    rw [← List.map_flatten, chunk10_flatten]
    exact hnodup
  have h3 := (List.nodup_flatten.mp h2).2
  rw [List.pairwise_iff_getElem] at h3
  rcases Nat.lt_or_ge i j with hij | hij
  · have hd := h3 i j (by simpa using hi) (by simpa using hj) hij
    exact hd (by simpa using hxi) (by simpa using hxj)
  · have hji : j < i := by omega
    have hd := h3 j i (by simpa using hj) (by simpa using hi) hji
    exact hd (by simpa using hxj) (by simpa using hxi)

/-- C3: with candidates split into batches of 10 scored independently, if
exactly one batch (index `f`) fails while every fulfilled batch only scores
ids of its own posts, `filterPostsByContext` still returns every input post
in order; every post of the failed batch carries `relevanceScore = 5`, and
any post whose id is absent from the merged score map carries
`relevanceScore = 0`. -/
theorem filterPostsByContext_batch_fault (posts : List CPost)
    (outcomes : List (Option ScoreMap)) (f : Nat)
    (hlen : outcomes.length = (chunk10 posts).length)
    (hnodup : (posts.map CPost.id).Nodup)
    (hf : f < outcomes.length)
    (hfail : outcomes.getD f none = none)
    (hothers : ∀ j, j < outcomes.length → j ≠ f → outcomes.getD j none ≠ none)
    (hdom : ∀ j sm, outcomes.getD j none = some sm → ∀ i : String,
        (sm i).isSome = true →
        ((chunk10 posts).getD j []).any (fun p => p.id == i) = true) :
    (filterPostsByContext posts outcomes).map ScoredPost.post = posts
    ∧ (∀ p ∈ (chunk10 posts).getD f [],
        ∀ sp ∈ filterPostsByContext posts outcomes,
          sp.post = p → sp.relevanceScore = 5)
    ∧ (∀ sp ∈ filterPostsByContext posts outcomes,
        mergeScores (chunk10 posts) outcomes sp.post.id = none →
          sp.relevanceScore = 0) := by
  have hfb : f < (chunk10 posts).length := by omega
  have hLlen : ((chunk10 posts).zip outcomes).length = outcomes.length := by
    rw [List.length_zip]
    omega
  refine ⟨?_, ?_, ?_⟩
  · have hmm : (filterPostsByContext posts outcomes).map ScoredPost.post
        = posts.map (fun p => p) := by
      simp only [filterPostsByContext, List.map_map]
      rfl
    rw [hmm]
    simp
  · intro p hp sp hsp hpost
    have hgetDf : (chunk10 posts).getD f [] = (chunk10 posts).get ⟨f, hfb⟩ := by
      simp [List.getD_eq_getElem?_getD, List.getElem?_eq_getElem hfb]
    rw [hgetDf] at hp
    have hfailf : outcomes.get ⟨f, hf⟩ = none := by
      rw [List.getD_eq_getElem?_getD, List.getElem?_eq_getElem hf] at hfail
      exact hfail
    have hms : mergeScores (chunk10 posts) outcomes p.id = some 5 := by
      unfold mergeScores
      rw [foldl_assignOutcome]
      have hlw : lastWrite p.id ((chunk10 posts).zip outcomes) = some 5 := by
        apply lastWrite_at p.id _ f 5 (by omega)
        · have hzf : ((chunk10 posts).zip outcomes).get ⟨f, by omega⟩
              = ((chunk10 posts).get ⟨f, hfb⟩, outcomes.get ⟨f, hf⟩) := by
            simp [List.getElem_zip]
          rw [hzf, hfailf]
          have hany : ((chunk10 posts).get ⟨f, hfb⟩).any
              (fun q => q.id == p.id) = true := by
            rw [List.any_eq_true]
            refine ⟨p, hp, ?_⟩
            simp
          show (if ((chunk10 posts).get ⟨f, hfb⟩).any (fun q => q.id == p.id) = true
              then some (5:Int) else none) = some 5
          rw [if_pos hany]
        · intro j hj hfj
          have hjo : j < outcomes.length := by omega
          have hjb : j < (chunk10 posts).length := by omega
          have hzj : ((chunk10 posts).zip outcomes).get ⟨j, hj⟩
              = ((chunk10 posts).get ⟨j, hjb⟩, outcomes.get ⟨j, hjo⟩) := by
            simp [List.getElem_zip]
          rw [hzj]
          have hjne : j ≠ f := by omega
          have hsome : outcomes.getD j none ≠ none := by
            apply hothers j hjo hjne
          rw [List.getD_eq_getElem?_getD, List.getElem?_eq_getElem hjo] at hsome
          cases hoj : outcomes.get ⟨j, hjo⟩ with
          | none =>
            rw [List.get_eq_getElem] at hoj
            exact absurd hoj hsome
          | some sm =>
            show writeAt ((chunk10 posts).get ⟨j, hjb⟩, some sm) p.id = none
            show sm p.id = none
            cases hsm : sm p.id with
            | none => rfl
            | some v =>
              exfalso
              have hgdj : outcomes.getD j none = some sm := by
                rw [List.getD_eq_getElem?_getD, List.getElem?_eq_getElem hjo]
                rw [List.get_eq_getElem] at hoj
                exact hoj
              have hany := hdom j sm hgdj p.id (by rw [hsm]; rfl)
              have hgetDj : (chunk10 posts).getD j [] = (chunk10 posts).get ⟨j, hjb⟩ := by
                simp [List.getD_eq_getElem?_getD, List.getElem?_eq_getElem hjb]
              rw [hgetDj] at hany
              obtain ⟨q, hq, hqid⟩ := List.any_eq_true.mp hany
              apply chunk10_disjoint_ids posts hnodup f j hfb hjb (by omega) p.id
              · exact List.mem_map.mpr ⟨p, hp, rfl⟩
              · exact List.mem_map.mpr ⟨q, hq, by simpa using hqid⟩
      rw [hlw]
    simp only [filterPostsByContext] at hsp
    obtain ⟨q, hq, hqe⟩ := List.mem_map.mp hsp
    have hqp : q = p := by
      rw [← hpost, ← hqe]
    subst hqp
    rw [← hqe]
    show jsInt (mergeScores (chunk10 posts) outcomes q.id) 0 = 5
    rw [hms]
    rfl
  · intro sp hsp hnone
    simp only [filterPostsByContext] at hsp
    obtain ⟨q, hq, hqe⟩ := List.mem_map.mp hsp
    rw [← hqe] at hnone ⊢
    show jsInt (mergeScores (chunk10 posts) outcomes q.id) 0 = 0
    rw [show (⟨q, jsInt (mergeScores (chunk10 posts) outcomes q.id) 0⟩ :
        ScoredPost).post = q from rfl] at hnone
    rw [hnone]
    rfl


/-- Witness for C3 at a concrete input: two posts forming a single batch
whose only outcome is a rejection. -/
theorem filterPostsByContext_batch_fault_witness :
    (filterPostsByContext [⟨"a", 0⟩, ⟨"b", 1⟩] [none]).map ScoredPost.post
        = [⟨"a", 0⟩, ⟨"b", 1⟩]
    ∧ (∀ p ∈ (chunk10 [⟨"a", 0⟩, ⟨"b", 1⟩]).getD 0 [],
        ∀ sp ∈ filterPostsByContext [⟨"a", 0⟩, ⟨"b", 1⟩] [none],
          sp.post = p → sp.relevanceScore = 5)
    ∧ (∀ sp ∈ filterPostsByContext [⟨"a", 0⟩, ⟨"b", 1⟩] [none],
        mergeScores (chunk10 [⟨"a", 0⟩, ⟨"b", 1⟩]) [none] sp.post.id = none →
          sp.relevanceScore = 0) :=
  filterPostsByContext_batch_fault [⟨"a", 0⟩, ⟨"b", 1⟩] [none] 0
    (by simp [chunk10])
    (by decide)
    (by decide)
    rfl
    (by intro j hj hne; simp at hj; omega)
    (by
      intro j sm hsm
      cases j with
      | zero => exact absurd hsm (by simp)
      | succ k => exact absurd hsm (by simp))


/-! ## C4 — `semanticFilter` fails closed -/

theorem getEmbeddingsWithRetry_all_fail (outcome : Nat → Except String (List (List ℝ)))
    (hfail : ∀ n, ∃ e, outcome n = .error e) :
    ∀ a, ∃ e, getEmbeddingsWithRetry outcome a = .error e := by
  have key : ∀ k a, 4 - a ≤ k → ∃ e, getEmbeddingsWithRetry outcome a = .error e := by
    intro k
    induction k with
    | zero =>
      intro a ha
      obtain ⟨e, he⟩ := hfail a
      refine ⟨e, ?_⟩
      rw [getEmbeddingsWithRetry, he]
      show (if 4 ≤ a then Except.error e
          else getEmbeddingsWithRetry outcome (a + 1)) = Except.error e
      rw [if_pos (by omega)]
    | succ k ih =>
      intro a ha
      obtain ⟨e, he⟩ := hfail a
      by_cases h4 : 4 ≤ a
      · refine ⟨e, ?_⟩
        rw [getEmbeddingsWithRetry, he]
        show (if 4 ≤ a then Except.error e
            else getEmbeddingsWithRetry outcome (a + 1)) = Except.error e
        rw [if_pos h4]
      · obtain ⟨e2, he2⟩ := ih (a + 1) (by omega)
        refine ⟨e2, ?_⟩
        rw [getEmbeddingsWithRetry, he]
        show (if 4 ≤ a then Except.error e
            else getEmbeddingsWithRetry outcome (a + 1)) = Except.error e2
        rw [if_neg h4]
        exact he2
  intro a
  exact key 4 a (by omega)

theorem semanticFilterRun_eq (posts : List SPost) (query intentType : String)
    (outcome : List String → Nat → Except String (List (List ℝ)))
    (hne : posts ≠ []) :
    semanticFilterRun posts query intentType outcome
      = match getEmbeddings outcome (query :: posts.map postText) with
        | Except.error _ => ⟨[], posts⟩
        | Except.ok embeddings =>
          ⟨keptAtThreshold (adaptiveThreshold intentType) (embeddings.headD [])
              posts embeddings.tail,
            semanticApply (embeddings.headD []) posts embeddings.tail⟩ := by
  unfold semanticFilterRun
  rw [if_neg (by simpa using hne)]

/-- C4: for every non-empty post list, query and intent, if every attempt of
the batched embedding call fails (so the retry loop exhausts its 4 attempts
and rethrows), `semanticFilter` returns the empty list — failing closed
rather than propagating the error or passing unfiltered candidates
downstream — and leaves the input posts unmutated. -/
theorem semanticFilter_fails_closed (posts : List SPost) (query intentType : String)
    (outcome : List String → Nat → Except String (List (List ℝ)))
    (hne : posts ≠ [])
    (hfail : ∀ texts n, ∃ e, outcome texts n = .error e) :
    (semanticFilterRun posts query intentType outcome).kept = []
    ∧ (semanticFilterRun posts query intentType outcome).finalPosts = posts := by
  obtain ⟨e, he⟩ := getEmbeddingsWithRetry_all_fail
    (outcome (query :: posts.map postText)) (hfail _) 1
  rw [semanticFilterRun_eq posts query intentType outcome hne,
    show getEmbeddings outcome (query :: posts.map postText)
      = Except.error e from he]
  exact ⟨rfl, rfl⟩

/-- Witness for C4 at a concrete input. -/
theorem semanticFilter_fails_closed_witness :
    (semanticFilterRun [⟨"a", "t", none, none, 0⟩] "q" "unknown"
        (fun _ _ => Except.error "boom")).kept = []
    ∧ (semanticFilterRun [⟨"a", "t", none, none, 0⟩] "q" "unknown"
        (fun _ _ => Except.error "boom")).finalPosts
      = [⟨"a", "t", none, none, 0⟩] :=
  semanticFilter_fails_closed [⟨"a", "t", none, none, 0⟩] "q" "unknown"
    (fun _ _ => Except.error "boom") (List.cons_ne_nil _ _)
    (fun _ _ => ⟨"boom", rfl⟩)

/-! ## C5 — semantic threshold filter: keep-iff and monotonicity -/

theorem mem_zipWith_iff {α β γ : Type} (f : α → β → γ) (l1 : List α)
    (l2 : List β) (c : γ) :
    c ∈ List.zipWith f l1 l2 ↔
      ∃ (i : Nat) (h1 : i < l1.length) (h2 : i < l2.length),
        c = f (l1.get ⟨i, h1⟩) (l2.get ⟨i, h2⟩) := by
  rw [List.mem_iff_getElem]
  constructor
  · rintro ⟨n, hn, hc⟩
    have hmin : n < min l1.length l2.length := by
      rw [← List.length_zipWith]
      exact hn
    have h1 : n < l1.length := by omega
    have h2 : n < l2.length := by omega
    refine ⟨n, h1, h2, ?_⟩
    rw [← hc, List.getElem_zipWith]
    rfl
  · rintro ⟨i, h1, h2, hc⟩
    have hi : i < (List.zipWith f l1 l2).length := by
      rw [List.length_zipWith]
      omega
    refine ⟨i, hi, ?_⟩
    rw [List.getElem_zipWith]
    exact hc.symm

/-- C5: (a) a candidate is kept at threshold `t` precisely when it is the
score-annotated copy of some input post whose cosine similarity to the query
embedding is ≥ `t`; (b) for thresholds `t1 ≤ t2`, everything kept at `t2` is
kept at `t1` — raising the threshold never increases the output. -/
theorem keptAtThreshold_iff_and_antitone (qe : List ℝ) (posts : List SPost)
    (pes : List (List ℝ)) (t t1 t2 : ℝ)
    (hlen : pes.length = posts.length) (ht : t1 ≤ t2) :
    (∀ sp, sp ∈ keptAtThreshold t qe posts pes ↔
      ∃ (i : Nat) (hi : i < posts.length),
        sp = { posts.get ⟨i, hi⟩ with
               semanticScore := some (cosineSimilarity qe (pes.get ⟨i, by omega⟩)) }
        ∧ t ≤ cosineSimilarity qe (pes.get ⟨i, by omega⟩))
    ∧ (∀ sp, sp ∈ keptAtThreshold t2 qe posts pes →
        sp ∈ keptAtThreshold t1 qe posts pes) := by
  constructor
  · intro sp
    unfold keptAtThreshold semanticApply
    rw [List.mem_filter, mem_zipWith_iff]
    constructor
    · rintro ⟨⟨i, h1, h2, hsp⟩, hpred⟩
      refine ⟨i, h1, hsp, ?_⟩
      rw [hsp] at hpred
      exact of_decide_eq_true hpred
    · rintro ⟨i, hi, hsp, hscore⟩
      refine ⟨⟨i, hi, by omega, hsp⟩, ?_⟩
      rw [hsp]
      exact decide_eq_true hscore
  · intro sp hsp
    unfold keptAtThreshold at hsp ⊢
    rw [List.mem_filter] at hsp ⊢
    refine ⟨hsp.1, ?_⟩
    exact decide_eq_true (le_trans ht (of_decide_eq_true hsp.2))

/-- Witness for C5 at a concrete input. -/
theorem keptAtThreshold_iff_and_antitone_witness :
    (∀ sp, sp ∈ keptAtThreshold 0 [1] [⟨"a", "t", none, none, 0⟩] [[1]] ↔
      ∃ (i : Nat) (hi : i < ([⟨"a", "t", none, none, 0⟩] : List SPost).length),
        sp = { ([⟨"a", "t", none, none, 0⟩] : List SPost).get ⟨i, hi⟩ with
               semanticScore := some (cosineSimilarity [1]
                 (([[1]] : List (List ℝ)).get ⟨i, by simpa using hi⟩)) }
        ∧ (0:ℝ) ≤ cosineSimilarity [1]
            (([[1]] : List (List ℝ)).get ⟨i, by simpa using hi⟩))
    ∧ (∀ sp, sp ∈ keptAtThreshold 1 [1] [⟨"a", "t", none, none, 0⟩] [[1]] →
        sp ∈ keptAtThreshold 0 [1] [⟨"a", "t", none, none, 0⟩] [[1]]) :=
  keptAtThreshold_iff_and_antitone [1] [⟨"a", "t", none, none, 0⟩] [[1]] 0 0 1
    rfl (by norm_num)

/-! ## C10 — `semanticFilter` mutates every input post on success -/

/-- C10: on a successful embedding run returning one vector per text,
`semanticFilter` writes a `semanticScore` into every input post — the posts
below the threshold (absent from the returned list) included — leaving every
other field unchanged; the post-call state of the input array is
`finalPosts`. -/
theorem semanticFilter_scores_all (posts : List SPost) (query intentType : String)
    (outcome : List String → Nat → Except String (List (List ℝ)))
    (embs : List (List ℝ))
    (hok : getEmbeddings outcome (query :: posts.map postText) = .ok embs)
    (hlen : embs.length = posts.length + 1)
    (hne : posts ≠ []) :
    (semanticFilterRun posts query intentType outcome).finalPosts.length
        = posts.length
    ∧ ∀ i (hi : i < posts.length),
        (semanticFilterRun posts query intentType outcome).finalPosts.get? i
          = some { posts.get ⟨i, hi⟩ with
              semanticScore := some (cosineSimilarity (embs.headD [])
                (embs.tail.getD i [])) } := by
  have htl : embs.tail.length = posts.length := by
    rw [List.length_tail]
    omega
  have hrun : semanticFilterRun posts query intentType outcome
      = ⟨keptAtThreshold (adaptiveThreshold intentType) (embs.headD []) posts embs.tail,
         semanticApply (embs.headD []) posts embs.tail⟩ := by
    rw [semanticFilterRun_eq posts query intentType outcome hne, hok]
  rw [hrun]
  constructor
  · show (semanticApply (embs.headD []) posts embs.tail).length = posts.length
    unfold semanticApply
    rw [List.length_zipWith]
    omega
  · intro i hi
    show (semanticApply (embs.headD []) posts embs.tail).get? i = _
    unfold semanticApply
    have hiz : i < (List.zipWith
        (fun p e => { p with semanticScore := some (cosineSimilarity (embs.headD []) e) })
        posts embs.tail).length := by
      rw [List.length_zipWith]
      omega
    rw [List.get?_eq_getElem? , List.getElem?_eq_getElem hiz, List.getElem_zipWith]
    have hgd : embs.tail.getD i [] = embs.tail.get ⟨i, by omega⟩ := by
      simp [List.getD_eq_getElem?_getD, List.getElem?_eq_getElem (by omega : i < embs.tail.length)]
    rw [hgd]
    rfl


/-- Witness for C10 at a concrete input. -/
theorem semanticFilter_scores_all_witness :
    (semanticFilterRun [⟨"a", "t", none, none, 0⟩] "q" "unknown"
        (fun _ _ => Except.ok [[1], [1]])).finalPosts.length
        = ([⟨"a", "t", none, none, 0⟩] : List SPost).length
    ∧ ∀ (i : Nat) (hi : i < ([⟨"a", "t", none, none, 0⟩] : List SPost).length),
        (semanticFilterRun [⟨"a", "t", none, none, 0⟩] "q" "unknown"
            (fun _ _ => Except.ok [[1], [1]])).finalPosts.get? i
          = some { ([⟨"a", "t", none, none, 0⟩] : List SPost).get ⟨i, hi⟩ with
              semanticScore := some (cosineSimilarity
                (([[1], [1]] : List (List ℝ)).headD [])
                (([[1], [1]] : List (List ℝ)).tail.getD i [])) } :=
  semanticFilter_scores_all [⟨"a", "t", none, none, 0⟩] "q" "unknown"
    (fun _ _ => Except.ok [[1], [1]]) [[1], [1]]
    (by unfold getEmbeddings; rw [getEmbeddingsWithRetry])
    rfl
    (List.cons_ne_nil _ _)

/-! ## C8 — `fetchWithRetry` backoff policy -/

theorem fetchRetryGo_spec (attempts : Nat → AttemptResult) (maxRetries : Nat) :
    ∀ k a, maxRetries - a ≤ k →
      (fetchRetryGo attempts maxRetries a).2.length ≤ maxRetries - 1 - a
      ∧ (∀ (i : Nat) (hi : i < (fetchRetryGo attempts maxRetries a).2.length),
          (∀ s, attempts (a + i) = .response s →
            (fetchRetryGo attempts maxRetries a).2.get ⟨i, hi⟩ = 2 ^ (a + i) * 1500)
          ∧ (attempts (a + i) = .timeout →
            (fetchRetryGo attempts maxRetries a).2.get ⟨i, hi⟩ = 2000)) := by
  intro k
  induction k with
  | zero =>
    intro a ha
    have hge : ¬ (a < maxRetries) := by omega
    rw [fetchRetryGo, dif_neg hge]
    refine ⟨by simp, ?_⟩
    intro i hi
    simp at hi
  | succ k ih =>
    intro a ha
    by_cases hlt : a < maxRetries
    · rw [fetchRetryGo, dif_pos hlt]
      cases hA : attempts a with
      | response s =>
        dsimp only
        by_cases hok : isOkStatus s = true
        · rw [if_pos hok]
          refine ⟨by simp, ?_⟩
          intro i hi
          simp at hi
        · rw [if_neg hok]
          by_cases hr : retryableStatus s = true ∧ a < maxRetries - 1
          · rw [if_pos hr]
            obtain ⟨ihlen, ihidx⟩ := ih (a + 1) (by omega)
            constructor
            · simp only [List.length_cons]
              omega
            · intro i hi
              cases i with
              | zero =>
                constructor
                · intro s2 hs2
                  show 2 ^ a * 1500 = 2 ^ (a + 0) * 1500
                  rw [Nat.add_zero]
                · intro ht2
                  rw [Nat.add_zero, hA] at ht2
                  exact absurd ht2 (by simp)
              | succ j =>
                have hj : j < (fetchRetryGo attempts maxRetries (a + 1)).2.length := by
                  simp only [List.length_cons] at hi
                  omega
                have := ihidx j hj
                have harith : a + (j + 1) = (a + 1) + j := by omega
                constructor
                · intro s2 hs2
                  show (fetchRetryGo attempts maxRetries (a + 1)).2.get ⟨j, hj⟩
                      = 2 ^ (a + (j + 1)) * 1500
                  rw [harith]
                  exact this.1 s2 (by rw [← harith]; exact hs2)
                · intro ht2
                  show (fetchRetryGo attempts maxRetries (a + 1)).2.get ⟨j, hj⟩ = 2000
                  exact this.2 (by rw [← harith]; exact ht2)
          · rw [if_neg hr]
            refine ⟨by simp, ?_⟩
            intro i hi
            simp at hi
      | timeout =>
        dsimp only
        by_cases h2 : a < maxRetries - 1
        · rw [if_pos h2]
          obtain ⟨ihlen, ihidx⟩ := ih (a + 1) (by omega)
          constructor
          · simp only [List.length_cons]
            omega
          · intro i hi
            cases i with
            | zero =>
              constructor
              · intro s2 hs2
                rw [Nat.add_zero, hA] at hs2
                exact absurd hs2 (by simp)
              · intro _
                rfl
            | succ j =>
              have hj : j < (fetchRetryGo attempts maxRetries (a + 1)).2.length := by
                simp only [List.length_cons] at hi
                omega
              have := ihidx j hj
              have harith : a + (j + 1) = (a + 1) + j := by omega
              constructor
              · intro s2 hs2
                show (fetchRetryGo attempts maxRetries (a + 1)).2.get ⟨j, hj⟩
                    = 2 ^ (a + (j + 1)) * 1500
                rw [harith]
                exact this.1 s2 (by rw [← harith]; exact hs2)
              · intro ht2
                show (fetchRetryGo attempts maxRetries (a + 1)).2.get ⟨j, hj⟩ = 2000
                exact this.2 (by rw [← harith]; exact ht2)
        · rw [if_neg h2]
          refine ⟨by simp, ?_⟩
          intro i hi
          simp at hi
      | failure =>
        dsimp only
        refine ⟨by simp, ?_⟩
        intro i hi
        simp at hi
    · rw [fetchRetryGo, dif_neg hlt]
      refine ⟨by simp, ?_⟩
      intro i hi
      simp at hi

/-- C8 (amended): the Source Searcher's `fetchWithRetry` caps the attempt
count at `maxRetries` (at most `maxRetries − 1` backoff sleeps); a retryable
HTTP status — 429 exactly like 5xx — is retried after an exponentially
doubling delay of `1500·2^attempt` ms, while a timeout is retried after a
fixed 2000 ms delay (not an exponential one, and 429 gets no longer fixed
delay). -/
theorem fetchWithRetry_backoff (attempts : Nat → AttemptResult) (maxRetries : Nat) :
    (fetchWithRetry attempts maxRetries).2.length ≤ maxRetries - 1
    ∧ (∀ (i : Nat) (hi : i < (fetchWithRetry attempts maxRetries).2.length),
        (∀ s, attempts i = .response s →
          (fetchWithRetry attempts maxRetries).2.get ⟨i, hi⟩ = 2 ^ i * 1500)
        ∧ (attempts i = .timeout →
          (fetchWithRetry attempts maxRetries).2.get ⟨i, hi⟩ = 2000)) := by
  obtain ⟨h1, h2⟩ := fetchRetryGo_spec attempts maxRetries maxRetries 0 (by omega)
  refine ⟨by simpa using h1, ?_⟩
  intro i hi
  have := h2 i hi
  simpa using this

/-- Witness for C8 (amended) at a concrete input: three attempts all
returning 503. -/
theorem fetchWithRetry_backoff_witness :
    (fetchWithRetry (fun _ => AttemptResult.response 503) 3).2.length ≤ 3 - 1
    ∧ (∀ (i : Nat)
          (hi : i < (fetchWithRetry (fun _ => AttemptResult.response 503) 3).2.length),
        (∀ s, (fun _ => AttemptResult.response 503) i = AttemptResult.response s →
          (fetchWithRetry (fun _ => AttemptResult.response 503) 3).2.get ⟨i, hi⟩
            = 2 ^ i * 1500)
        ∧ ((fun _ => AttemptResult.response 503) i = AttemptResult.timeout →
          (fetchWithRetry (fun _ => AttemptResult.response 503) 3).2.get ⟨i, hi⟩
            = 2000)) :=
  fetchWithRetry_backoff (fun _ => AttemptResult.response 503) 3

/-- C8 counterexample: with the default 3 attempts, a stream of 429 responses
sleeps 1500 ms then 3000 ms — an exponentially doubling delay, not the longer
fixed delay the claim describes — while a stream of timeouts sleeps a fixed
2000 ms twice, not an exponential backoff. -/
theorem fetchWithRetry_backoff_counterexample :
    (fetchWithRetry (fun _ => AttemptResult.response 429) 3).2 = [1500, 3000]
    ∧ (fetchWithRetry (fun _ => AttemptResult.timeout) 3).2 = [2000, 2000]
    ∧ (1500 : Nat) ≠ 3000 := by
  refine ⟨?_, ?_, by omega⟩
  · unfold fetchWithRetry
    rw [fetchRetryGo, fetchRetryGo, fetchRetryGo]
    norm_num [isOkStatus, retryableStatus]
  · unfold fetchWithRetry
    rw [fetchRetryGo, fetchRetryGo, fetchRetryGo]
    norm_num

/-! ## C9 — request validation in `POST /api/context/filter` -/

/-- C9 (amended): the route rejects with HTTP 400, before any pipeline stage
runs, exactly those requests whose query is missing, empty, or shorter than
2 characters — measured on the raw, untrimmed string; any other query,
including one longer than 200 characters or one that is short after
trimming, is passed to the pipeline unchanged. -/
theorem routePOST_validation {α : Type} (pipeline : String → α) (q : Option String) :
    (routePOST q pipeline = RouteResponse.badRequest ↔
      (q = none ∨ q = some "" ∨ ∃ s, q = some s ∧ s.length < 2))
    ∧ (∀ s, q = some s → s ≠ "" → ¬ s.length < 2 →
        routePOST q pipeline = RouteResponse.result (pipeline s)) := by
  constructor
  · cases q with
    | none => simp [routePOST]
    | some s =>
      by_cases hs : s = ""
      · subst hs
        simp [routePOST]
      · by_cases hl : s.length < 2
        · simp only [routePOST, if_neg hs, if_pos hl]
          constructor
          · intro _
            exact Or.inr (Or.inr ⟨s, rfl, hl⟩)
          · intro _
            trivial
        · simp only [routePOST, if_neg hs, if_neg hl]
          constructor
          · intro hc
            exact absurd hc (by simp)
          · rintro (hc | hc | ⟨s2, hs2, hl2⟩)
            · exact absurd hc (by simp)
            · exact absurd (Option.some.inj hc) hs
            · rw [Option.some.inj hs2] at hl
              exact absurd hl2 hl
  · intro s hq hs hl
    subst hq
    simp only [routePOST, if_neg hs, if_neg hl]

/-- Witness for C9 (amended) at a concrete input. -/
theorem routePOST_validation_witness :
    ((routePOST (some "ab") (fun s => s) = RouteResponse.badRequest ↔
      (some "ab" = none ∨ some "ab" = some ""
        ∨ ∃ s, some "ab" = some s ∧ s.length < 2))
    ∧ (∀ s, some "ab" = some s → s ≠ "" → ¬ s.length < 2 →
        routePOST (some "ab") (fun s => s) = RouteResponse.result s)) :=
  routePOST_validation (fun s => s) (some "ab")

/-- C9 counterexample: a 201-character query passes validation and reaches
the pipeline although the claim says queries longer than 200 characters are
rejected with 400; likewise a 2-character query whose first character is a
space (so it is 1 character after trimming) passes, because the code never
trims. -/
theorem routePOST_validation_counterexample :
    routePOST (some longQuery) (fun s => s) = RouteResponse.result longQuery
    ∧ 200 < longQuery.length
    ∧ routePOST (some " a") (fun s => s) = RouteResponse.result " a"
    ∧ " a".toList = [' ', 'a'] := by
  have hlen : longQuery.length = 201 := by
    unfold longQuery
    rw [String.length_mk, List.length_replicate]
  have h1 : longQuery ≠ "" := by
    intro hc
    rw [hc] at hlen
    exact absurd hlen (by decide)
  have h2 : ¬ longQuery.length < 2 := by
    rw [hlen]
    omega
  refine ⟨?_, by rw [hlen]; omega, by decide, by decide⟩
  simp only [routePOST, if_neg h1, if_neg h2]
